import Mathlib

/-!
Verification of the NameDrop filename-compatibility engine.

The definitions below are a shallow embedding of the engine parts of the
repository: the platform restriction registry (PLATFORM_RESTRICTIONS in
src/namedrop/main.py), the restriction merger (get_combined_restrictions),
the per-platform severity evaluation (the per-platform body of
update_platform_leds), the sanitizer (the pure core of
apply_compatibility_filter), and the character utilities
(character_utils.py).  Filenames are modelled as List Char; Python sets of
characters are modelled as lists used only through membership, which is
faithful because every use of those sets in the source is either a
membership test or an iteration whose net effect is order-independent
(removing all occurrences of each element).
-/

namespace NameDrop

/-- Position restriction labels, the members of the excluded_positions
lists of PLATFORM_RESTRICTIONS. -/
inductive Position where
  | leadingSpace
  | trailingSpace
  | leadingPeriod
  | trailingPeriod
deriving DecidableEq, Repr

/-- Additional restriction labels, the members of the
additional_restrictions lists of PLATFORM_RESTRICTIONS. -/
inductive Addl where
  | noSpacePeriodAfterExt
  | noSpacesOnly
deriving DecidableEq, Repr

/-- Severity levels of the LED classification, ordered
green < yellow < orange < purple < red. -/
inductive Severity where
  | green
  | yellow
  | orange
  | purple
  | red
deriving DecidableEq, Repr

/-- Numeric rank of a severity, used to express the total order
Green < Yellow < Orange < Purple < Red. -/
def sevRank : Severity → Nat
  | .green => 0
  | .yellow => 1
  | .orange => 2
  | .purple => 3
  | .red => 4

/-- Maximum of two severities under the rank order. -/
def maxSev (a b : Severity) : Severity :=
  if sevRank a < sevRank b then b else a

/-- Profile ids registered in PLATFORM_RESTRICTIONS.  The UI only ever
passes these six keys, so the registry is modelled as a total function on
this inductive type. -/
inductive PlatformKey where
  | everything
  | windows
  | macos
  | linux
  | cloud
  | fat32
deriving DecidableEq, Repr

/-- One entry of PLATFORM_RESTRICTIONS.  Character sets are lists used via
membership; reserved names are lists of character lists. -/
structure Platform where
  name : String
  excluded_chars : List Char
  problematic_chars : List Char
  excluded_positions : List Position
  reserved_names : List (List Char)
  max_path_length : Option Nat
  max_filename_length : Option Nat
  additional_restrictions : List Addl
deriving DecidableEq, Repr

/-- Characters of the Python string literal given to set(...) for the
excluded characters of Everything, Windows, Cloud and FAT32.  The double
quote is written with Char.ofNat 34. -/
def winExcludedChars : List Char :=
  ['<', '>', ':', Char.ofNat 34, '|', '?', '*', '\\', '/']

/-- Characters of the Python string literal for the problematic characters
of Everything and Cloud.  The braces are written with Char.ofNat 123 and
Char.ofNat 125. -/
def winProblematicChars : List Char :=
  ['!', '@', '#', '$', '%', '^', '&', '(', ')', '[', ']',
   Char.ofNat 123, Char.ofNat 125, ';', ',', '=', '+']

/-- Windows reserved names, as listed in PLATFORM_RESTRICTIONS for the
Windows, Cloud and FAT32 profiles. -/
def winReservedNames : List (List Char) :=
  ["CON", "PRN", "AUX", "NUL",
   "COM1", "COM2", "COM3", "COM4", "COM5", "COM6", "COM7", "COM8", "COM9",
   "LPT1", "LPT2", "LPT3", "LPT4", "LPT5", "LPT6", "LPT7", "LPT8", "LPT9",
   ".", ".."].map String.data

/-- Registry PLATFORM_RESTRICTIONS of src/namedrop/main.py. -/
def PLATFORM_RESTRICTIONS : PlatformKey → Platform
  | .everything =>
    { name := "Everything (All Platforms)"
      excluded_chars := winExcludedChars
      problematic_chars := winProblematicChars
      excluded_positions := [.trailingSpace, .trailingPeriod, .leadingSpace]
      reserved_names := []
      max_path_length := some 260
      max_filename_length := some 255
      additional_restrictions := [.noSpacePeriodAfterExt, .noSpacesOnly] }
  | .windows =>
    { name := "Windows OS"
      excluded_chars := winExcludedChars
      problematic_chars := []
      excluded_positions := [.trailingSpace, .trailingPeriod]
      reserved_names := winReservedNames
      max_path_length := some 260
      max_filename_length := some 255
      additional_restrictions := [.noSpacePeriodAfterExt, .noSpacesOnly] }
  | .macos =>
    { name := "macOS"
      excluded_chars := [':', '/']
      problematic_chars := []
      excluded_positions := []
      reserved_names := []
      max_path_length := some 255
      max_filename_length := some 255
      additional_restrictions := [] }
  | .linux =>
    { name := "Linux"
      excluded_chars := ['/']
      problematic_chars := []
      excluded_positions := []
      reserved_names := []
      max_path_length := some 255
      max_filename_length := some 255
      additional_restrictions := [] }
  | .cloud =>
    { name := "Cloud Drives"
      excluded_chars := winExcludedChars
      problematic_chars := winProblematicChars
      excluded_positions := [.trailingSpace, .trailingPeriod]
      reserved_names := winReservedNames
      max_path_length := some 260
      max_filename_length := some 255
      additional_restrictions := [.noSpacePeriodAfterExt, .noSpacesOnly] }
  | .fat32 =>
    { name := "FAT32"
      excluded_chars := winExcludedChars
      problematic_chars := []
      excluded_positions := [.trailingSpace, .trailingPeriod]
      reserved_names := winReservedNames
      max_path_length := some 260
      max_filename_length := some 255
      additional_restrictions := [.noSpacePeriodAfterExt, .noSpacesOnly] }

/-- Result shape of get_combined_restrictions: the returned dict has
exactly the three keys excluded_chars, problematic_chars and
excluded_positions. -/
structure Combined where
  excluded_chars : List Char
  problematic_chars : List Char
  excluded_positions : List Position
deriving DecidableEq, Repr

/-- Keys of the dict returned by get_combined_restrictions in
src/namedrop/main.py (both the empty-input early return and the non-empty
case return a dict with exactly these keys). -/
def get_combined_restrictions_fields : List String :=
  ["excluded_chars", "problematic_chars", "excluded_positions"]

/-- Merger get_combined_restrictions of src/namedrop/main.py.  Python's
set.update unions are modelled by list concatenation (used only via
membership); list(set(excluded_positions)) is modelled by dedup, which has
the same membership. -/
def get_combined_restrictions (ps : List PlatformKey) : Combined :=
  if ps = [] then
    { excluded_chars := [], problematic_chars := [], excluded_positions := [] }
  else
    { excluded_chars :=
        ps.foldl (fun acc k => acc ++ (PLATFORM_RESTRICTIONS k).excluded_chars) []
      problematic_chars :=
        ps.foldl (fun acc k => acc ++ (PLATFORM_RESTRICTIONS k).problematic_chars) []
      excluded_positions :=
        (ps.foldl (fun acc k => acc ++ (PLATFORM_RESTRICTIONS k).excluded_positions) []).dedup }

/-- Loop of get_length_restriction_chars that computes the most restrictive
max_filename_length over the selected platforms: None values and falsy
(zero) values are skipped, and a value replaces the accumulator when the
accumulator is None or the value is strictly smaller. -/
def min_max_filename_length (ps : List PlatformKey) : Option Nat :=
  ps.foldl
    (fun acc k =>
      match (PLATFORM_RESTRICTIONS k).max_filename_length with
      | none => acc
      | some m =>
        if m ≠ 0 ∧ (acc = none ∨ ∃ a, acc = some a ∧ m < a) then some m else acc)
    none

/-- Minimum non-null max_filename_length across a profile set, written the
way the specification words it: the minimum of the non-null values. -/
def spec_min_filename_length (ps : List PlatformKey) : Option Nat :=
  (ps.filterMap (fun k => (PLATFORM_RESTRICTIONS k).max_filename_length)).foldl
    (fun acc m =>
      match acc with
      | none => some m
      | some a => some (min a m))
    none

/-- Python str.replace(c, "") on a character list: remove every occurrence
of the character. -/
def pyReplace (s : List Char) (c : Char) : List Char :=
  s.filter (fun x => x != c)

/-- Character-removal loop of apply_compatibility_filter: for every
character of the given set that is not a space and not in the ignore set,
remove all its occurrences.  Python iterates the set in an unspecified
order; the net effect is order-independent (see removeChars_eq_filter). -/
def removeChars (cs ig : List Char) (s : List Char) : List Char :=
  cs.foldl (fun acc c => if c ≠ ' ' ∧ c ∉ ig then pyReplace acc c else acc) s

/-- Python str.rstrip(c) on a character list. -/
def rstripChar (s : List Char) (c : Char) : List Char :=
  (s.reverse.dropWhile (fun x => x == c)).reverse

/-- Python str.lstrip(c) on a character list. -/
def lstripChar (s : List Char) (c : Char) : List Char :=
  s.dropWhile (fun x => x == c)

/-- Part before the last period of a name, i.e. name.rsplit(".", 1)[0],
meaningful when the name contains a period. -/
def namePartOf (s : List Char) : List Char :=
  ((s.reverse.dropWhile (fun x => x != '.')).drop 1).reverse

/-- Part after the last period of a name, i.e. name.rsplit(".", 1)[1],
meaningful when the name contains a period. -/
def extPartOf (s : List Char) : List Char :=
  (s.reverse.takeWhile (fun x => x != '.')).reverse

/-- Python s.endswith(c) for a single character. -/
def endsWithChar (s : List Char) (c : Char) : Bool :=
  s.reverse.head? == some c

/-- Python s.startswith(c) for a single character. -/
def startsWithChar (s : List Char) (c : Char) : Bool :=
  s.head? == some c

/-- Trailing-period branch of apply_compatibility_filter (step 4 of the
sanitizer): split at the last period when one exists, strip trailing
periods from the name part, rejoin unless both parts are empty, in which
case strip all trailing periods from the whole string; with no period,
strip all trailing periods. -/
def trailingPeriodStep (s : List Char) : List Char :=
  if '.' ∈ s then
    let np := rstripChar (namePartOf s) '.'
    if np ≠ [] ∨ extPartOf s ≠ [] then np ++ '.' :: extPartOf s
    else rstripChar s '.'
  else rstripChar s '.'

/-- Pure core of apply_compatibility_filter in src/namedrop/main.py: the
transformation of the current file name under the combined restrictions
and the ignore set, in source order: excluded-character removal,
problematic-character removal, trailing-space strip, trailing-period
handling, leading-space strip, leading-period strip. -/
def sanitize (s : List Char) (rst : Combined) (ig : List Char) : List Char :=
  let f1 := removeChars rst.excluded_chars ig s
  let f2 := removeChars rst.problematic_chars ig f1
  let f3 := if Position.trailingSpace ∈ rst.excluded_positions then rstripChar f2 ' ' else f2
  let f4 := if Position.trailingPeriod ∈ rst.excluded_positions then trailingPeriodStep f3 else f3
  let f5 := if Position.leadingSpace ∈ rst.excluded_positions then lstripChar f4 ' ' else f4
  if Position.leadingPeriod ∈ rst.excluded_positions then lstripChar f5 '.' else f5

/-- Accent table ACCENT_MAP of character_utils.py, in source order.  The
Python dict literal contains a few repeated keys; every repeated key maps
to the same value, so a first-match lookup over this list agrees with the
Python dict (where the last occurrence wins). -/
def ACCENT_MAP : List (Char × String) :=
  [('à', "a"), ('á', "a"), ('â', "a"), ('ã', "a"), ('ä', "a"), ('å', "a"),
   ('è', "e"), ('é', "e"), ('ê', "e"), ('ë', "e"),
   ('ì', "i"), ('í', "i"), ('î', "i"), ('ï', "i"),
   ('ò', "o"), ('ó', "o"), ('ô', "o"), ('õ', "o"), ('ö', "o"), ('ø', "o"),
   ('ù', "u"), ('ú', "u"), ('û', "u"), ('ü', "u"),
   ('ý', "y"), ('ÿ', "y"),
   ('ñ', "n"), ('ç', "c"),
   ('À', "A"), ('Á', "A"), ('Â', "A"), ('Ã', "A"), ('Ä', "A"), ('Å', "A"),
   ('È', "E"), ('É', "E"), ('Ê', "E"), ('Ë', "E"),
   ('Ì', "I"), ('Í', "I"), ('Î', "I"), ('Ï', "I"),
   ('Ò', "O"), ('Ó', "O"), ('Ô', "O"), ('Õ', "O"), ('Ö', "O"), ('Ø', "O"),
   ('Ù', "U"), ('Ú', "U"), ('Û', "U"), ('Ü', "U"),
   ('Ý', "Y"), ('Ÿ', "Y"),
   ('Ñ', "N"), ('Ç', "C"),
   ('æ', "ae"), ('œ', "oe"), ('ß', "ss"),
   ('Æ', "AE"), ('Œ', "OE"),
   ('ð', "d"), ('Ð', "D"), ('þ', "th"), ('Þ', "TH"),
   ('ł', "l"), ('Ł', "L"), ('đ', "d"), ('Đ', "D"),
   ('č', "c"), ('Č', "C"), ('ć', "c"), ('Ć', "C"),
   ('ř', "r"), ('Ř', "R"), ('ž', "z"), ('Ž', "Z"),
   ('š', "s"), ('Š', "S"), ('ť', "t"), ('Ť', "T"),
   ('ď', "d"), ('Ď', "D"), ('ň', "n"), ('Ň', "N"),
   ('ą', "a"), ('Ą', "A"), ('ę', "e"), ('Ę', "E"),
   ('ė', "e"), ('Ė', "E"), ('į', "i"), ('Į', "I"),
   ('ų', "u"), ('Ų', "U"), ('ū', "u"), ('Ū', "U"),
   ('ą', "a"), ('Ą', "A"), ('ć', "c"), ('Ć', "C"),
   ('ę', "e"), ('Ę', "E"), ('ł', "l"), ('Ł', "L"),
   ('ń', "n"), ('Ń', "N"), ('ó', "o"), ('Ó', "O"),
   ('ś', "s"), ('Ś', "S"), ('ź', "z"), ('Ź', "Z"),
   ('ż', "z"), ('Ż', "Z"),
   ('ğ', "g"), ('Ğ', "G"), ('ş', "s"), ('Ş', "S"),
   ('ı', "i"), ('İ', "I"),
   ('ă', "a"), ('Ă', "A"), ('â', "a"), ('Â', "A"),
   ('î', "i"), ('Î', "I"), ('ș', "s"), ('Ș', "S"),
   ('ț', "t"), ('Ț', "T")]

/-- Lookup in ACCENT_MAP. -/
def accentLookup (c : Char) : Option String :=
  (ACCENT_MAP.find? (fun q => q.1 = c)).map (fun q => q.2)

/-- Membership test the Python idiom `ignore_chars and char in ignore_chars`
performs: with None (and with the falsy empty set) it is false, otherwise
it is set membership.  The ignore argument is Option-valued because the
character_utils functions default it to None. -/
def igMem (c : Char) (ig : Option (List Char)) : Bool :=
  match ig with
  | none => false
  | some l => decide (c ∈ l)

/-- CharacterUtils.is_standard_ascii: true when the character is in the
ignore set (guarded by truthiness) or its code point lies in 32..126. -/
def is_standard_ascii (c : Char) (ig : Option (List Char)) : Bool :=
  igMem c ig || (32 ≤ c.toNat && c.toNat ≤ 126)

/-- CharacterUtils.find_non_standard_ascii: the characters of the text that
fail is_standard_ascii.  Python collects them into a set; the list of
failing occurrences has the same membership and the same emptiness. -/
def find_non_standard_ascii (t : List Char) (ig : Option (List Char)) : List Char :=
  t.filter (fun c => !is_standard_ascii c ig)

/-- Error raised by Python when `char in ignore_chars` is evaluated with
ignore_chars = None. -/
def noneTypeError : String :=
  "TypeError: argument of type NoneType is not iterable"

/-- CharacterUtils.replace_accented_chars.  Its first statement on each
character is `char in ignore_chars` with no truthiness guard, so a None
ignore set raises TypeError as soon as the text is non-empty; otherwise
ignored characters pass through, accent-table hits are replaced by their
transliteration, and every other character (standard or not) passes
through unchanged. -/
def replace_accented_chars (t : List Char) (ig : Option (List Char)) :
    Except String (List Char) :=
  match ig with
  | none => if t = [] then .ok [] else .error noneTypeError
  | some l =>
    .ok (t.flatMap (fun c =>
      if c ∈ l then [c]
      else
        match accentLookup c with
        | some r => r.data
        | none => [c]))

/-- CharacterUtils.remove_bad_chars: keep only the characters satisfying
is_standard_ascii. -/
def remove_bad_chars (t : List Char) (ig : Option (List Char)) : List Char :=
  t.filter (fun c => is_standard_ascii c ig)

/-- CharacterUtils.auto_fix_name: replace accented characters, then remove
remaining non-standard characters; the TypeError of
replace_accented_chars propagates. -/
def auto_fix_name (t : List Char) (ig : Option (List Char)) :
    Except String (List Char) :=
  (replace_accented_chars t ig).map (fun u => remove_bad_chars u ig)

/-- Python str.upper restricted to its ASCII behaviour: lower-case ASCII
letters map to upper case, every other character is left unchanged.  The
reserved names it is compared against are all ASCII. -/
def upperChar (c : Char) : Char :=
  if 97 ≤ c.toNat ∧ c.toNat ≤ 122 then Char.ofNat (c.toNat - 32) else c

/-- Stem used by the reserved-name check of update_platform_leds: the part
before the last period when a period exists, otherwise the whole name. -/
def reservedStem (s : List Char) : List Char :=
  if '.' ∈ s then namePartOf s else s

/-- Reserved-name check of update_platform_leds: when the profile has
reserved names, upper-case the stem and test membership in the upper-cased
reserved names. -/
def reservedNameIssue (s : List Char) (p : Platform) : Bool :=
  if p.reserved_names ≠ [] then
    decide ((reservedStem s).map upperChar ∈ p.reserved_names.map (List.map upperChar))
  else false

/-- Trailing-period position check of update_platform_leds: with a period
present, flag when the part before the last period ends with a period or
the whole name ends with a period; with no period, flag when the name ends
with a period. -/
def trailingPeriodIssue (s : List Char) : Bool :=
  if '.' ∈ s then endsWithChar (namePartOf s) '.' || endsWithChar s '.'
  else endsWithChar s '.'

/-- Position checks of update_platform_leds, combined by successive
if-statements into a disjunction. -/
def positionIssue (s : List Char) (pos : List Position) : Bool :=
  (decide (Position.trailingSpace ∈ pos) && endsWithChar s ' ')
  || (decide (Position.trailingPeriod ∈ pos) && trailingPeriodIssue s)
  || (decide (Position.leadingSpace ∈ pos) && startsWithChar s ' ')
  || (decide (Position.leadingPeriod ∈ pos) && startsWithChar s '.')

/-- Whitespace stripped by Python str.strip() with no argument, i.e. the
characters for which Python str.isspace() holds: the ASCII control range
tab to carriage return, the separator controls 0x1C to 0x1F, the space,
next line (0x85), no-break space (0xA0), ogham space mark (0x1680), the
typographic spaces 0x2000 to 0x200A, the line and paragraph separators
(0x2028, 0x2029), narrow no-break space (0x202F), medium mathematical
space (0x205F) and ideographic space (0x3000). -/
def isPyWhitespace (c : Char) : Bool :=
  (9 ≤ c.toNat && c.toNat ≤ 13) || (28 ≤ c.toNat && c.toNat ≤ 32) ||
  c.toNat == 133 || c.toNat == 160 || c.toNat == 0x1680 ||
  (0x2000 ≤ c.toNat && c.toNat ≤ 0x200A) ||
  c.toNat == 0x2028 || c.toNat == 0x2029 || c.toNat == 0x202F ||
  c.toNat == 0x205F || c.toNat == 0x3000

/-- Python str.strip() on a character list: drop isPyWhitespace characters
from both ends. -/
def pyStrip (s : List Char) : List Char :=
  ((s.dropWhile isPyWhitespace).reverse.dropWhile isPyWhitespace).reverse

/-- Additional-restriction checks of update_platform_leds: space or period
immediately before the extension, spaces-only name, filename-length
overrun, and the heuristic path-length budget (50 characters of headroom
below max_path_length); Python's truthiness guards skip None and zero
limits. -/
def additionalIssue (s : List Char) (p : Platform) : Bool :=
  let a1 := decide (Addl.noSpacePeriodAfterExt ∈ p.additional_restrictions)
    && decide ('.' ∈ s)
    && (endsWithChar (namePartOf s) ' ' || endsWithChar (namePartOf s) '.')
  let a2 := decide (Addl.noSpacesOnly ∈ p.additional_restrictions)
    && decide (pyStrip s = []) && decide (s ≠ [])
  let a3 :=
    match p.max_filename_length with
    | none => false
    | some m => decide (m ≠ 0) && decide (s.length > m)
  let a4 :=
    match p.max_path_length with
    | none => false
    | some m => decide (m ≠ 0) && decide ((s.length : Int) > (m : Int) - 50)
  a1 || a2 || a3 || a4

/-- Excluded-character check of update_platform_leds: some character of the
profile's excluded set minus the ignore set occurs in the name. -/
def hasExcludedB (s : List Char) (p : Platform) (ig : List Char) : Bool :=
  (p.excluded_chars.filter (fun c => c ∉ ig)).any (fun c => decide (c ∈ s))

/-- Problematic-character check of update_platform_leds. -/
def hasProblematicB (s : List Char) (p : Platform) (ig : List Char) : Bool :=
  (p.problematic_chars.filter (fun c => c ∉ ig)).any (fun c => decide (c ∈ s))

/-- Purple-level condition of update_platform_leds: position issues,
reserved names, or additional restrictions. -/
def purpleB (s : List Char) (p : Platform) : Bool :=
  positionIssue s p.excluded_positions || reservedNameIssue s p || additionalIssue s p

/-- Yellow-level condition of update_platform_leds: the non-standard
characters of the name, minus the ignore set, are non-empty. -/
def yellowB (s : List Char) (ig : List Char) : Bool :=
  !((find_non_standard_ascii s (some ig)).filter (fun c => c ∉ ig)).isEmpty

/-- Per-platform severity cascade of update_platform_leds: the LED colour
computed for one platform from a file name and the ignore set, with
priority Red > Purple > Orange > Yellow > Green. -/
def evaluate (s : List Char) (p : Platform) (ig : List Char) : Severity :=
  if hasExcludedB s p ig then .red
  else if purpleB s p then .purple
  else if hasProblematicB s p ig then .orange
  else if yellowB s ig then .yellow
  else .green

/-- Severity the specification describes: the highest-priority severity
among the checks that fire, each check contributing its level and Green
standing for none of the above. -/
def specSeverity (s : List Char) (p : Platform) (ig : List Char) : Severity :=
  [if hasExcludedB s p ig then Severity.red else Severity.green,
   if purpleB s p then Severity.purple else Severity.green,
   if hasProblematicB s p ig then Severity.orange else Severity.green,
   if yellowB s ig then Severity.yellow else Severity.green].foldl maxSev .green

/-- Trailing-period check as the claim words it: the part of the name
before the final extension ends with a period when an extension part
exists, or the whole name ends with a period when there is no extension. -/
def claimTrailingPeriod (s : List Char) : Bool :=
  let hasExt := decide ('.' ∈ s) && !(extPartOf s).isEmpty
  (hasExt && endsWithChar (namePartOf s) '.') || (endsWithChar s '.' && !hasExt)

/-- Sanitizer step 4 as the claim words it: split at the last period; when
the split yields an extension part, strip trailing periods from the name
part and rejoin, falling back to stripping all trailing periods when both
parts become empty; with no period, strip all trailing periods. -/
def claimStep4 (s : List Char) : List Char :=
  if '.' ∈ s then
    let np := rstripChar (namePartOf s) '.'
    if np = [] ∧ extPartOf s = [] then rstripChar s '.'
    else np ++ '.' :: extPartOf s
  else rstripChar s '.'

/-- Reverse-space version of trailingPeriodStep, operating on the reversed
character list; proofs about the sanitizer are carried out on this form. -/
def step4R (r : List Char) : List Char :=
  if '.' ∈ r then
    let e := r.takeWhile (fun x => x != '.')
    let n := (r.dropWhile (fun x => x != '.')).tail
    let a := n.dropWhile (fun x => x == '.')
    if a ≠ [] ∨ e ≠ [] then e ++ '.' :: a else r.dropWhile (fun x => x == '.')
  else r.dropWhile (fun x => x == '.')

/-- Reverse-space version of the sanitizer pipeline without the leading
strips: character filtering, optional trailing-space strip, optional
trailing-period step, all on the reversed list. -/
def pipeR (tsb tpb : Bool) (q : Char → Bool) (r : List Char) : List Char :=
  let r1 := r.filter q
  let r2 := if tsb then r1.dropWhile (fun x => x == ' ') else r1
  if tpb then step4R r2 else r2

/-- Combined keep-predicate of the two character-removal steps of the
sanitizer: a character survives when it is not removable as an excluded
character and not removable as a problematic character. -/
def keepPred (rst : Combined) (ig : List Char) (x : Char) : Bool :=
  decide (¬(x ∈ rst.problematic_chars ∧ x ≠ ' ' ∧ x ∉ ig)) &&
  decide (¬(x ∈ rst.excluded_chars ∧ x ≠ ' ' ∧ x ∉ ig))

section Lemmas

/-- Net effect of the character-removal loop: the loop removes exactly the
characters that are in the set, differ from space and are not ignored,
independently of iteration order. -/
theorem removeChars_eq_filter (cs ig : List Char) :
    ∀ s, removeChars cs ig s =
      s.filter (fun x => decide (¬(x ∈ cs ∧ x ≠ ' ' ∧ x ∉ ig))) := by
  induction cs with
  | nil =>
    intro s
    simp [removeChars]
  | cons c cs ih =>
    intro s
    by_cases hc : c ≠ ' ' ∧ c ∉ ig
    · have h1 : removeChars (c :: cs) ig s = removeChars cs ig (pyReplace s c) := by
        simp [removeChars, hc, List.foldl_cons]
      rw [h1, ih, pyReplace, List.filter_filter]
      apply List.filter_congr
      intro x _
      by_cases hx : x = c
      · subst hx
        have h2 : (decide (¬(x ∈ x :: cs ∧ x ≠ ' ' ∧ x ∉ ig))) = false := by
          simp [hc.1, hc.2]
        simp only [h2, bne_self_eq_false, Bool.and_false]
      · have h2 : (x != c) = true := by simpa using hx
        simp only [h2, Bool.and_true, decide_eq_decide, List.mem_cons]
        constructor
        · intro h hmem
          rcases hmem.1 with h1 | h1
          · exact hx h1
          · exact h ⟨h1, hmem.2⟩
        · intro h hmem
          exact h ⟨Or.inr hmem.1, hmem.2⟩
    · have h1 : removeChars (c :: cs) ig s = removeChars cs ig s := by
        simp [removeChars, hc, List.foldl_cons]
      rw [h1, ih]
      apply List.filter_congr
      intro x _
      simp only [decide_eq_decide, List.mem_cons]
      constructor
      · intro h hmem
        rcases hmem.1 with h1 | h1
        · exact hc (h1 ▸ hmem.2)
        · exact h ⟨h1, hmem.2⟩
      · intro h hmem
        exact h ⟨Or.inr hmem.1, hmem.2⟩

/-- Every element of the output of the character-removal loop survives the
removal predicate. -/
theorem mem_removeChars {cs ig s : List Char} {x : Char}
    (h : x ∈ removeChars cs ig s) : x ∈ s ∧ ¬(x ∈ cs ∧ x ≠ ' ' ∧ x ∉ ig) := by
  rw [removeChars_eq_filter] at h
  have h2 := List.mem_filter.mp h
  refine ⟨h2.1, ?_⟩
  have h3 := h2.2
  simpa only [decide_eq_true_eq] using h3

/-- DropWhile leaves a list unchanged when its head fails the predicate. -/
theorem dropWhile_eq_self_of_head {p : Char → Bool} {l : List Char}
    (h : ∀ c, l.head? = some c → p c = false) : l.dropWhile p = l := by
  cases l with
  | nil => rfl
  | cons a t =>
    have ha : p a = false := h a rfl
    simp [List.dropWhile_cons, ha]

/-- DropWhile with the not-a-period predicate exposes the first period from
the right end of the original string. -/
theorem dropWhile_ne_dot_cons :
    ∀ {r : List Char}, '.' ∈ r →
      r.dropWhile (fun x => x != '.') = '.' :: (r.dropWhile (fun x => x != '.')).tail := by
  intro r h
  induction r with
  | nil => cases h
  | cons a t ih =>
    by_cases ha : a = '.'
    · subst ha
      simp
    · have ht : '.' ∈ t := by
        rcases List.mem_cons.mp h with h1 | h1
        · exact absurd h1.symm ha
        · exact h1
      have hpa : (a != '.') = true := by simpa using ha
      simp only [List.dropWhile_cons, hpa, if_true]
      exact ih ht

/-- Names containing a period decompose as name part, separator period,
extension part, with the extension part free of periods. -/
theorem dot_decomp {s : List Char} (h : '.' ∈ s) :
    s = namePartOf s ++ '.' :: extPartOf s ∧ '.' ∉ extPartOf s := by
  have hr : '.' ∈ s.reverse := List.mem_reverse.mpr h
  have hcons := dropWhile_ne_dot_cons hr
  constructor
  · have key : s.reverse.takeWhile (fun x => x != '.') ++
        '.' :: (s.reverse.dropWhile (fun x => x != '.')).tail = s.reverse := by
      rw [← hcons]
      exact List.takeWhile_append_dropWhile (p := fun x => x != '.') (l := s.reverse)
    calc s = s.reverse.reverse := (List.reverse_reverse s).symm
    _ = (s.reverse.takeWhile (fun x => x != '.') ++
          '.' :: (s.reverse.dropWhile (fun x => x != '.')).tail).reverse := by rw [key]
    _ = ((s.reverse.dropWhile (fun x => x != '.')).tail).reverse ++
          '.' :: (s.reverse.takeWhile (fun x => x != '.')).reverse := by
        simp [List.reverse_append]
    _ = namePartOf s ++ '.' :: extPartOf s := by
        simp [namePartOf, extPartOf, List.drop_one]
  · intro hx
    have hx' : '.' ∈ s.reverse.takeWhile (fun x => x != '.') := by
      simpa [extPartOf] using hx
    have := List.mem_takeWhile_imp hx'
    simp at this

/-- Membership in the extension part or the name part comes from membership
in the whole name. -/
theorem mem_of_mem_extPart {s : List Char} {x : Char} (h : x ∈ extPartOf s) : x ∈ s := by
  have : x ∈ s.reverse.takeWhile (fun ch => ch != '.') := by
    simpa [extPartOf] using h
  have := ( List.takeWhile_prefix (l := s.reverse) (p := fun ch => ch != '.')).sublist.mem this
  simpa using this

/-- Existential form of the decomposition of dropWhile at the first period
from the right. -/
theorem dropWhile_ne_dot_cons' {r : List Char} (h : '.' ∈ r) :
    ∃ t, r.dropWhile (fun x => x != '.') = '.' :: t :=
  ⟨_, dropWhile_ne_dot_cons h⟩

/-- Dropping leading periods from a list without periods is the identity. -/
theorem no_dot_dropWhile_dot {r : List Char} (h : '.' ∉ r) :
    r.dropWhile (fun x => x == '.') = r := by
  apply dropWhile_eq_self_of_head
  intro c hc
  have hmem : c ∈ r := List.mem_of_mem_head? (by rw [hc]; simp)
  have : c ≠ '.' := fun he => h (he ▸ hmem)
  simpa using this

/-- Step4R on a list without periods reduces to the identity. -/
theorem step4R_no_dot {r : List Char} (h : '.' ∉ r) : step4R r = r := by
  simp [step4R, h, no_dot_dropWhile_dot h]

/-- Step4R in its rejoin branch. -/
theorem step4R_eq_join {r : List Char} (h : '.' ∈ r)
    (hcond : (r.dropWhile (fun x => x != '.')).tail.dropWhile (fun x => x == '.') ≠ [] ∨
      r.takeWhile (fun x => x != '.') ≠ []) :
    step4R r = r.takeWhile (fun x => x != '.') ++
      '.' :: (r.dropWhile (fun x => x != '.')).tail.dropWhile (fun x => x == '.') := by
  simp only [step4R, if_pos h]
  rw [if_pos hcond]

/-- Step4R in its fallback branch. -/
theorem step4R_eq_fallback {r : List Char} (h : '.' ∈ r)
    (ha : (r.dropWhile (fun x => x != '.')).tail.dropWhile (fun x => x == '.') = [])
    (he : r.takeWhile (fun x => x != '.') = []) :
    step4R r = r.dropWhile (fun x => x == '.') := by
  simp only [step4R, if_pos h]
  rw [if_neg]
  push_neg
  exact ⟨ha, he⟩

/-- In the fallback branch of step4R the whole list consists of periods. -/
theorem all_dots_of_fallback {r : List Char} (h : '.' ∈ r)
    (he : r.takeWhile (fun x => x != '.') = [])
    (ha : (r.dropWhile (fun x => x != '.')).tail.dropWhile (fun x => x == '.') = []) :
    ∀ x ∈ r, x = '.' := by
  obtain ⟨t, ht⟩ := dropWhile_ne_dot_cons' h
  have key := List.takeWhile_append_dropWhile (p := fun x => x != '.') (l := r)
  rw [he, List.nil_append, ht] at key
  rw [ht, List.tail_cons] at ha
  intro x hx
  rw [← key] at hx
  rcases List.mem_cons.mp hx with h1 | h1
  · exact h1
  · have h2 := List.dropWhile_eq_nil_iff.mp ha x h1
    simpa using h2

/-- Step4R is idempotent. -/
theorem step4R_idem (r : List Char) : step4R (step4R r) = step4R r := by
  by_cases h : '.' ∈ r
  · by_cases hcond : (r.dropWhile (fun x => x != '.')).tail.dropWhile (fun x => x == '.') ≠ [] ∨
      r.takeWhile (fun x => x != '.') ≠ []
    · rw [step4R_eq_join h hcond]
      have hEdot : ∀ x ∈ r.takeWhile (fun y => y != '.'), (x != '.') = true := by
        intro x hx
        simpa using List.mem_takeWhile_imp hx
      have hAhead : ∀ c,
          ((r.dropWhile (fun y => y != '.')).tail.dropWhile (fun y => y == '.')).head? = some c →
            (fun y => y == '.') c = false := by
        intro c hc
        have h2 := List.head?_dropWhile_not (fun y => y == '.')
          ((r.dropWhile (fun y => y != '.')).tail)
        rw [hc] at h2
        simpa using h2
      have hmem2 : '.' ∈ r.takeWhile (fun y => y != '.') ++
          '.' :: (r.dropWhile (fun y => y != '.')).tail.dropWhile (fun y => y == '.') := by
        simp
      have htake : (r.takeWhile (fun y => y != '.') ++
          '.' :: (r.dropWhile (fun y => y != '.')).tail.dropWhile (fun y => y == '.')).takeWhile
            (fun y => y != '.') = r.takeWhile (fun y => y != '.') := by
        rw [List.takeWhile_append_of_pos hEdot]
        simp
      have hdrop : (r.takeWhile (fun y => y != '.') ++
          '.' :: (r.dropWhile (fun y => y != '.')).tail.dropWhile (fun y => y == '.')).dropWhile
            (fun y => y != '.') =
          '.' :: (r.dropWhile (fun y => y != '.')).tail.dropWhile (fun y => y == '.') := by
        rw [List.dropWhile_append_of_pos hEdot]
        simp
      have hA2 : ('.' :: (r.dropWhile (fun y => y != '.')).tail.dropWhile
          (fun y => y == '.')).tail.dropWhile (fun y => y == '.') =
          (r.dropWhile (fun y => y != '.')).tail.dropWhile (fun y => y == '.') := by
        rw [List.tail_cons]
        exact dropWhile_eq_self_of_head hAhead
      rw [step4R_eq_join hmem2 (by rw [hdrop, hA2, htake]; exact hcond)]
      rw [htake, hdrop, hA2]
    · push_neg at hcond
      obtain ⟨ha, he⟩ := hcond
      rw [step4R_eq_fallback h ha he]
      have hall := all_dots_of_fallback h he ha
      have hnil : r.dropWhile (fun y => y == '.') = [] :=
        List.dropWhile_eq_nil_iff.mpr (fun x hx => by simp [hall x hx])
      rw [hnil]
      simp [step4R]
  · rw [step4R_no_dot h, step4R_no_dot h]

/-- Step4R preserves the property that the head differs from a fixed
character other than the period. -/
theorem step4R_head_not {r : List Char} {c : Char} (hc : c ≠ '.')
    (h : ∀ x, r.head? = some x → x ≠ c) :
    ∀ x, (step4R r).head? = some x → x ≠ c := by
  by_cases hdot : '.' ∈ r
  · by_cases hcond : (r.dropWhile (fun y => y != '.')).tail.dropWhile (fun y => y == '.') ≠ [] ∨
      r.takeWhile (fun y => y != '.') ≠ []
    · rw [step4R_eq_join hdot hcond]
      intro x hx
      cases hE : r.takeWhile (fun y => y != '.') with
      | nil =>
        rw [hE] at hx
        simp at hx
        subst hx
        exact fun he => hc he.symm
      | cons b E2 =>
        rw [hE] at hx
        simp at hx
        subst hx
        have hhead : r.head? = some b := by
          have := List.takeWhile_append_dropWhile (p := fun y => y != '.') (l := r)
          rw [hE] at this
          rw [← this]
          simp
        exact h b hhead
    · push_neg at hcond
      obtain ⟨ha, he⟩ := hcond
      rw [step4R_eq_fallback hdot ha he]
      have hall := all_dots_of_fallback hdot he ha
      have hnil : r.dropWhile (fun y => y == '.') = [] :=
        List.dropWhile_eq_nil_iff.mpr (fun x hx => by simp [hall x hx])
      rw [hnil]
      intro x hx
      simp at hx
  · rw [step4R_no_dot hdot]
    exact h

/-- Every element of step4R's output is a period or an element of the
input. -/
theorem mem_step4R {r : List Char} {x : Char} (h : x ∈ step4R r) : x = '.' ∨ x ∈ r := by
  by_cases hdot : '.' ∈ r
  · by_cases hcond : (r.dropWhile (fun y => y != '.')).tail.dropWhile (fun y => y == '.') ≠ [] ∨
      r.takeWhile (fun y => y != '.') ≠ []
    · rw [step4R_eq_join hdot hcond] at h
      rcases List.mem_append.mp h with h1 | h1
      · exact Or.inr (( List.takeWhile_prefix _).sublist.mem h1)
      · rcases List.mem_cons.mp h1 with h2 | h2
        · exact Or.inl h2
        · refine Or.inr ?_
          have s1 := List.dropWhile_sublist (l := (r.dropWhile (fun y => y != '.')).tail)
            (fun y => y == '.')
          have s2 := List.tail_sublist (r.dropWhile (fun y => y != '.'))
          have s3 := List.dropWhile_sublist (l := r) (fun y => y != '.')
          exact ((s1.trans s2).trans s3).mem h2
    · push_neg at hcond
      rw [step4R_eq_fallback hdot hcond.1 hcond.2] at h
      exact Or.inr ((List.dropWhile_sublist _).mem h)
  · rw [step4R_no_dot hdot] at h
    exact Or.inr h

/-- DropWhile with a predicate that never holds of a character preserves
its count. -/
theorem count_dropWhile_of_ne {p : Char → Bool} {c : Char}
    (hp : ∀ x, p x = true → x ≠ c) (l : List Char) :
    (l.dropWhile p).count c = l.count c := by
  conv_rhs => rw [← List.takeWhile_append_dropWhile (p := p) (l := l)]
  rw [List.count_append]
  have h0 : (l.takeWhile p).count c = 0 := by
    rw [List.count_eq_zero]
    intro hmem
    exact hp c (List.mem_takeWhile_imp hmem) rfl
  omega

/-- Step4R preserves the count of every character other than the period. -/
theorem count_step4R (r : List Char) {c : Char} (hc : c ≠ '.') :
    (step4R r).count c = r.count c := by
  have hdropdots : ∀ l : List Char, (l.dropWhile (fun x => x == '.')).count c = l.count c := by
    intro l
    apply count_dropWhile_of_ne
    intro x hx
    have : x = '.' := by simpa using hx
    subst this
    exact fun he => hc he.symm
  by_cases hdot : '.' ∈ r
  · by_cases hcond : (r.dropWhile (fun y => y != '.')).tail.dropWhile (fun y => y == '.') ≠ [] ∨
      r.takeWhile (fun y => y != '.') ≠ []
    · rw [step4R_eq_join hdot hcond]
      obtain ⟨t, ht⟩ := dropWhile_ne_dot_cons' hdot
      have key := List.takeWhile_append_dropWhile (p := fun y => y != '.') (l := r)
      rw [ht] at key
      conv_rhs => rw [← key]
      rw [ht, List.tail_cons]
      rw [List.count_append, List.count_append, List.count_cons, List.count_cons]
      rw [hdropdots t]
    · push_neg at hcond
      rw [step4R_eq_fallback hdot hcond.1 hcond.2]
      exact hdropdots r
  · rw [step4R_no_dot hdot]

/-- TrailingPeriodStep is the reverse-space step4R conjugated by list
reversal. -/
theorem trailingPeriodStep_rev (s : List Char) :
    trailingPeriodStep s = (step4R s.reverse).reverse := by
  by_cases h : '.' ∈ s
  · have hr : '.' ∈ s.reverse := List.mem_reverse.mpr h
    have hnp : rstripChar (namePartOf s) '.' =
        ((s.reverse.dropWhile (fun x => x != '.')).tail.dropWhile (fun x => x == '.')).reverse := by
      simp [rstripChar, namePartOf, List.drop_one]
    have hext : extPartOf s = (s.reverse.takeWhile (fun x => x != '.')).reverse := rfl
    by_cases hcond : (s.reverse.dropWhile (fun x => x != '.')).tail.dropWhile
        (fun x => x == '.') ≠ [] ∨ s.reverse.takeWhile (fun x => x != '.') ≠ []
    · rw [step4R_eq_join hr hcond]
      have hcond2 : rstripChar (namePartOf s) '.' ≠ [] ∨ extPartOf s ≠ [] := by
        rw [hnp, hext]
        simpa using hcond
      simp only [trailingPeriodStep, if_pos h]
      rw [if_pos hcond2, hnp, hext]
      simp [List.reverse_append]
    · push_neg at hcond
      obtain ⟨ha, he⟩ := hcond
      rw [step4R_eq_fallback hr ha he]
      have hcond2 : ¬(rstripChar (namePartOf s) '.' ≠ [] ∨ extPartOf s ≠ []) := by
        push_neg
        constructor
        · rw [hnp, ha]
          rfl
        · rw [hext, he]
          rfl
      simp only [trailingPeriodStep, if_pos h]
      rw [if_neg hcond2]
      simp [rstripChar]
  · have hr : '.' ∉ s.reverse := fun hx => h (List.mem_reverse.mp hx)
    rw [step4R_no_dot hr]
    simp [trailingPeriodStep, h, rstripChar, no_dot_dropWhile_dot hr]

/-- Composition of the two character-removal steps is a single filter by
the combined keep-predicate. -/
theorem removeChars_both_eq_filter (rst : Combined) (ig s : List Char) :
    removeChars rst.problematic_chars ig (removeChars rst.excluded_chars ig s) =
      s.filter (keepPred rst ig) := by
  rw [removeChars_eq_filter, removeChars_eq_filter, List.filter_filter]
  rfl

/-- The period survives the character filter when it is in neither removal
set. -/
theorem keepPred_dot {rst : Combined} {ig : List Char}
    (h1 : '.' ∉ rst.excluded_chars) (h2 : '.' ∉ rst.problematic_chars) :
    keepPred rst ig '.' = true := by
  simp [keepPred, h1, h2]

/-- The space always survives the character filter. -/
theorem keepPred_space (rst : Combined) (ig : List Char) :
    keepPred rst ig ' ' = true := by
  simp [keepPred]

/-- With no leading-position restrictions, the sanitizer is the reversal
conjugate of the reverse-space pipeline. -/
theorem sanitize_rev (rst : Combined) (ig : List Char)
    (hLS : Position.leadingSpace ∉ rst.excluded_positions)
    (hLP : Position.leadingPeriod ∉ rst.excluded_positions) (s : List Char) :
    sanitize s rst ig =
      (pipeR (decide (Position.trailingSpace ∈ rst.excluded_positions))
        (decide (Position.trailingPeriod ∈ rst.excluded_positions))
        (keepPred rst ig) s.reverse).reverse := by
  by_cases hts : Position.trailingSpace ∈ rst.excluded_positions <;>
    by_cases htp : Position.trailingPeriod ∈ rst.excluded_positions <;>
      simp [sanitize, pipeR, hts, htp, hLS, hLP, removeChars_both_eq_filter,
        trailingPeriodStep_rev, rstripChar, List.filter_reverse]

/-- The reverse-space sanitizer pipeline is idempotent when the period
survives the character filter. -/
theorem pipeR_idem (tsb tpb : Bool) {q : Char → Bool} (hq : q '.' = true)
    (r : List Char) : pipeR tsb tpb q (pipeR tsb tpb q r) = pipeR tsb tpb q r := by
  have hmemq : ∀ x ∈ pipeR tsb tpb q r, q x = true := by
    intro x hx
    simp only [pipeR] at hx
    have hx2 : x = '.' ∨
        x ∈ (if tsb then (r.filter q).dropWhile (fun y => y == ' ') else r.filter q) := by
      cases tpb with
      | false =>
        simp only [Bool.false_eq_true, if_false] at hx
        exact Or.inr hx
      | true =>
        simp only [if_true] at hx
        exact mem_step4R hx
    rcases hx2 with rfl | hx2
    · exact hq
    · have hx3 : x ∈ r.filter q := by
        cases tsb with
        | false => simpa using hx2
        | true =>
          simp only [if_true] at hx2
          exact (List.dropWhile_sublist _).mem hx2
      exact (List.mem_filter.mp hx3).2
  have hhead : tsb = true → ∀ c, (pipeR tsb tpb q r).head? = some c → c ≠ ' ' := by
    intro htsb c hc
    subst htsb
    simp only [pipeR, if_true] at hc
    have base : ∀ d, ((r.filter q).dropWhile (fun y => y == ' ')).head? = some d → d ≠ ' ' := by
      intro d hd
      have h2 := List.head?_dropWhile_not (fun y => y == ' ') (r.filter q)
      rw [hd] at h2
      simpa using h2
    cases tpb with
    | false =>
      simp only [Bool.false_eq_true, if_false] at hc
      exact base c hc
    | true =>
      simp only [if_true] at hc
      exact step4R_head_not (by decide) base c hc
  have h1 : (pipeR tsb tpb q r).filter q = pipeR tsb tpb q r :=
    List.filter_eq_self.mpr hmemq
  have expand : ∀ u, pipeR tsb tpb q u =
      (if tpb then step4R (if tsb then (u.filter q).dropWhile (fun y => y == ' ')
        else u.filter q)
       else (if tsb then (u.filter q).dropWhile (fun y => y == ' ') else u.filter q)) :=
    fun u => rfl
  rw [expand (pipeR tsb tpb q r), h1]
  have h2 : (if tsb then (pipeR tsb tpb q r).dropWhile (fun y => y == ' ')
      else pipeR tsb tpb q r) = pipeR tsb tpb q r := by
    cases tsb with
    | false => simp
    | true =>
      simp only [if_true]
      exact dropWhile_eq_self_of_head (fun c hc => by simpa using hhead rfl c hc)
  rw [h2]
  cases tpb with
  | false => simp
  | true =>
    simp only [if_true]
    have hform : pipeR tsb true q r =
        step4R (if tsb then (r.filter q).dropWhile (fun y => y == ' ') else r.filter q) :=
      rfl
    rw [hform, step4R_idem]

/-- Idempotence of the sanitizer for restriction sets without leading
strips whose removal sets do not contain the period. -/
theorem sanitize_idem_core (rst : Combined) (ig : List Char)
    (hLS : Position.leadingSpace ∉ rst.excluded_positions)
    (hLP : Position.leadingPeriod ∉ rst.excluded_positions)
    (h1 : '.' ∉ rst.excluded_chars) (h2 : '.' ∉ rst.problematic_chars)
    (s : List Char) :
    sanitize (sanitize s rst ig) rst ig = sanitize s rst ig := by
  rw [sanitize_rev rst ig hLS hLP s, sanitize_rev rst ig hLS hLP]
  rw [List.reverse_reverse]
  rw [pipeR_idem _ _ (keepPred_dot h1 h2)]

/-- Membership in a fold of list appends is membership in the seed or in
one of the appended lists. -/
theorem mem_foldl_append {α : Type} (f : PlatformKey → List α) :
    ∀ (ps : List PlatformKey) (init : List α) (x : α),
      (x ∈ ps.foldl (fun acc k => acc ++ f k) init ↔ x ∈ init ∨ ∃ k ∈ ps, x ∈ f k) := by
  intro ps
  induction ps with
  | nil =>
    intro init x
    simp
  | cons p ps ih =>
    intro init x
    rw [List.foldl_cons, ih]
    simp only [List.mem_append, List.mem_cons]
    constructor
    · rintro (⟨h | h⟩ | ⟨k, hk, hx⟩)
      · exact Or.inl h
      · exact Or.inr ⟨p, Or.inl rfl, h⟩
      · exact Or.inr ⟨k, Or.inr hk, hx⟩
    · rintro (h | ⟨k, hk | hk, hx⟩)
      · exact Or.inl (Or.inl h)
      · exact Or.inl (Or.inr (hk ▸ hx))
      · exact Or.inr ⟨k, hk, hx⟩

/-- Membership in the merged excluded characters is membership in some
selected profile's excluded characters. -/
theorem mem_combined_excluded (ps : List PlatformKey) (c : Char) :
    c ∈ (get_combined_restrictions ps).excluded_chars ↔
      ∃ k ∈ ps, c ∈ (PLATFORM_RESTRICTIONS k).excluded_chars := by
  by_cases h : ps = []
  · subst h
    simp [get_combined_restrictions]
  · simp only [get_combined_restrictions, if_neg h]
    rw [mem_foldl_append]
    simp

/-- Membership in the merged problematic characters is membership in some
selected profile's problematic characters. -/
theorem mem_combined_problematic (ps : List PlatformKey) (c : Char) :
    c ∈ (get_combined_restrictions ps).problematic_chars ↔
      ∃ k ∈ ps, c ∈ (PLATFORM_RESTRICTIONS k).problematic_chars := by
  by_cases h : ps = []
  · subst h
    simp [get_combined_restrictions]
  · simp only [get_combined_restrictions, if_neg h]
    rw [mem_foldl_append]
    simp

/-- Membership in the merged position restrictions is membership in some
selected profile's position restrictions. -/
theorem mem_combined_positions (ps : List PlatformKey) (q : Position) :
    q ∈ (get_combined_restrictions ps).excluded_positions ↔
      ∃ k ∈ ps, q ∈ (PLATFORM_RESTRICTIONS k).excluded_positions := by
  by_cases h : ps = []
  · subst h
    simp [get_combined_restrictions]
  · simp only [get_combined_restrictions, if_neg h]
    rw [List.mem_dedup, mem_foldl_append]
    simp

/-- Profiles other than Everything restrict no leading position. -/
theorem platform_no_leadingSpace (k : PlatformKey) (hk : k ≠ PlatformKey.everything) :
    Position.leadingSpace ∉ (PLATFORM_RESTRICTIONS k).excluded_positions := by
  cases k
  · exact absurd rfl hk
  all_goals decide

/-- No profile restricts the leading period. -/
theorem platform_no_leadingPeriod (k : PlatformKey) :
    Position.leadingPeriod ∉ (PLATFORM_RESTRICTIONS k).excluded_positions := by
  cases k <;> decide

/-- No profile lists the period among its removable characters. -/
theorem platform_no_dot (k : PlatformKey) :
    '.' ∉ (PLATFORM_RESTRICTIONS k).excluded_chars ∧
      '.' ∉ (PLATFORM_RESTRICTIONS k).problematic_chars := by
  cases k <;> exact ⟨by decide, by decide⟩

/-- No profile lists the space among its removable characters. -/
theorem platform_no_space (k : PlatformKey) :
    ' ' ∉ (PLATFORM_RESTRICTIONS k).excluded_chars ∧
      ' ' ∉ (PLATFORM_RESTRICTIONS k).problematic_chars := by
  cases k <;> exact ⟨by decide, by decide⟩

/-- Rstrip yields a subsequence (in fact a prefix) of its input. -/
theorem rstripChar_sublist (s : List Char) (c : Char) : List.Sublist (rstripChar s c) s := by
  have h := List.dropWhile_sublist (l := s.reverse) (fun x => x == c)
  have h2 : List.Sublist (s.reverse.dropWhile (fun x => x == c)).reverse s.reverse.reverse :=
    List.reverse_sublist.mpr h
  simpa [rstripChar] using h2

/-- An if-wrapped transformation that shrinks its input yields a
subsequence. -/
theorem sublist_if {b : Prop} [Decidable b] {f : List Char → List Char} {x : List Char}
    (hf : List.Sublist (f x) x) : List.Sublist (if b then f x else x) x := by
  split
  · exact hf
  · exact List.Sublist.refl x

/-- The trailing-period step yields a subsequence of its input. -/
theorem trailingPeriodStep_sublist (s : List Char) : List.Sublist (trailingPeriodStep s) s := by
  by_cases h : '.' ∈ s
  · obtain ⟨hdec, -⟩ := dot_decomp h
    by_cases hcond : rstripChar (namePartOf s) '.' ≠ [] ∨ extPartOf s ≠ []
    · have heq : trailingPeriodStep s =
          rstripChar (namePartOf s) '.' ++ '.' :: extPartOf s := by
        simp only [trailingPeriodStep, if_pos h]
        rw [if_pos hcond]
      rw [heq]
      conv_rhs => rw [hdec]
      exact (rstripChar_sublist (namePartOf s) '.').append (List.Sublist.refl _)
    · have heq : trailingPeriodStep s = rstripChar s '.' := by
        simp only [trailingPeriodStep, if_pos h]
        rw [if_neg hcond]
      rw [heq]
      exact rstripChar_sublist s '.'
  · simp only [trailingPeriodStep, if_neg h]
    exact rstripChar_sublist s '.'

/-- The character-removal loop yields a subsequence of its input. -/
theorem removeChars_sublist (cs ig s : List Char) : List.Sublist (removeChars cs ig s) s := by
  rw [removeChars_eq_filter]
  exact List.filter_sublist s

/-- The sanitizer only deletes characters: its output is a subsequence of
its input for every restriction set and ignore set. -/
theorem sanitize_sublist (rst : Combined) (ig s : List Char) : List.Sublist (sanitize s rst ig) s := by
  simp only [sanitize]
  apply List.Sublist.trans (sublist_if (f := fun y => lstripChar y '.') (List.dropWhile_sublist _))
  apply List.Sublist.trans (sublist_if (f := fun y => lstripChar y ' ') (List.dropWhile_sublist _))
  apply List.Sublist.trans (sublist_if (f := trailingPeriodStep) (trailingPeriodStep_sublist _))
  apply List.Sublist.trans (sublist_if (f := fun y => rstripChar y ' ') (rstripChar_sublist _ _))
  exact List.Sublist.trans (removeChars_sublist _ _ _) (removeChars_sublist _ _ _)

/-- Every registered profile carries the filename-length limit 255. -/
theorem maxlen_eq (k : PlatformKey) :
    (PLATFORM_RESTRICTIONS k).max_filename_length = some 255 := by
  cases k <;> rfl

/-- The minimum-length fold is constant once the accumulator reaches 255. -/
theorem foldl_minmax_const (ps : List PlatformKey) :
    ps.foldl (fun acc k =>
      match (PLATFORM_RESTRICTIONS k).max_filename_length with
      | none => acc
      | some m =>
        if m ≠ 0 ∧ (acc = none ∨ ∃ a, acc = some a ∧ m < a) then some m else acc)
      (some 255) = some 255 := by
  induction ps with
  | nil => rfl
  | cons k ps ih =>
    rw [List.foldl_cons, maxlen_eq k]
    simpa using ih

/-- Closed form of the loop computing the most restrictive filename
length. -/
theorem min_max_all (ps : List PlatformKey) :
    min_max_filename_length ps = if ps = [] then none else some 255 := by
  cases ps with
  | nil => rfl
  | cons k ps =>
    simp only [min_max_filename_length, List.foldl_cons, maxlen_eq k]
    simpa using foldl_minmax_const ps

/-- The non-null length values of any profile selection are all 255. -/
theorem filterMap_maxlen (ps : List PlatformKey) :
    ps.filterMap (fun k => (PLATFORM_RESTRICTIONS k).max_filename_length) =
      ps.map (fun _ => 255) := by
  induction ps with
  | nil => rfl
  | cons k ps ih => simp [List.filterMap_cons, maxlen_eq k, ih]

/-- Closed form of the specification-style minimum of non-null lengths. -/
theorem spec_min_all (ps : List PlatformKey) :
    spec_min_filename_length ps = if ps = [] then none else some 255 := by
  cases ps with
  | nil => rfl
  | cons k ps =>
    simp only [spec_min_filename_length, filterMap_maxlen, List.map_cons, List.foldl_cons]
    have haux : ∀ t : List PlatformKey,
        (t.map (fun _ => (255 : Nat))).foldl (fun acc m =>
          match acc with
          | none => some m
          | some a => some (min a m)) (some 255) = some 255 := by
      intro t
      induction t with
      | nil => rfl
      | cons x t ih => simpa using ih
    simpa using haux ps

/-- The loop of get_length_restriction_chars agrees with the
specification's minimum-of-non-null description on every profile
selection. -/
theorem min_max_eq_spec (ps : List PlatformKey) :
    min_max_filename_length ps = spec_min_filename_length ps := by
  rw [min_max_all, spec_min_all]

/-- With a period present, the extension part is empty exactly when the
name ends with a period. -/
theorem extPart_nil_iff {s : List Char} (h : '.' ∈ s) :
    extPartOf s = [] ↔ endsWithChar s '.' = true := by
  have hne : s.reverse ≠ [] := by
    intro he
    have h2 : s = [] := by simpa using congrArg List.reverse he
    subst h2
    cases h
  cases hr : s.reverse with
  | nil => exact absurd hr hne
  | cons a t =>
    by_cases ha : a = '.'
    · subst ha
      simp [extPartOf, endsWithChar, hr]
    · simp [extPartOf, endsWithChar, hr, ha]

/-- Characters of a name that ends with a period include the period. -/
theorem dot_mem_of_endsWith {s : List Char} (h : endsWithChar s '.' = true) : '.' ∈ s := by
  simp only [endsWithChar, beq_iff_eq] at h
  exact List.mem_reverse.mp (List.mem_of_mem_head? (by rw [h]; simp))

/-- The character-removal steps never delete a space. -/
theorem count_space_removeChars (cs ig s : List Char) :
    (removeChars cs ig s).count ' ' = s.count ' ' := by
  rw [removeChars_eq_filter]
  apply List.count_filter
  simp

/-- Space counts survive the sanitizer when neither trailing_space nor
leading_space is restricted. -/
theorem count_space_sanitize (rst : Combined) (ig s : List Char)
    (hts : Position.trailingSpace ∉ rst.excluded_positions)
    (hls : Position.leadingSpace ∉ rst.excluded_positions) :
    (sanitize s rst ig).count ' ' = s.count ' ' := by
  have hstep4 : ∀ u : List Char, (trailingPeriodStep u).count ' ' = u.count ' ' := by
    intro u
    rw [trailingPeriodStep_rev, List.count_reverse, count_step4R _ (by decide),
      List.count_reverse]
  have hlstrip : ∀ u : List Char, (lstripChar u '.').count ' ' = u.count ' ' := by
    intro u
    apply count_dropWhile_of_ne
    intro x hx
    have h2 : x = '.' := by simpa using hx
    subst h2
    decide
  simp only [sanitize, if_neg hts, if_neg hls]
  by_cases htp : Position.trailingPeriod ∈ rst.excluded_positions <;>
    by_cases hlp : Position.leadingPeriod ∈ rst.excluded_positions <;>
      simp [htp, hlp, hstep4, hlstrip, count_space_removeChars]

/-- The severity cascade of update_platform_leds computes the maximum of
the fired checks' severities. -/
theorem evaluate_cascade (s : List Char) (p : Platform) (ig : List Char) :
    evaluate s p ig = specSeverity s p ig := by
  simp only [evaluate, specSeverity]
  cases h1 : hasExcludedB s p ig <;> cases h2 : purpleB s p <;>
    cases h3 : hasProblematicB s p ig <;> cases h4 : yellowB s ig <;>
      simp [maxSev, sevRank]

end Lemmas

section Claims

/-- C1 counterexample: sanitize is not idempotent.  With the Everything
profile selected and an empty ignore set, the input consisting of two
spaces and a period sanitizes to a lone period (the leading-space strip
runs after the trailing-period handling), and sanitizing the lone period
yields the empty string. -/
theorem sanitize_not_idempotent_cex :
    sanitize
        (sanitize "  .".data (get_combined_restrictions [PlatformKey.everything]) [])
        (get_combined_restrictions [PlatformKey.everything]) [] ≠
      sanitize "  .".data (get_combined_restrictions [PlatformKey.everything]) [] := by
  decide

/-- C1 amended: for every filename, ignore set and non-empty selection of
profiles that does not include Everything, sanitize is idempotent; with
Everything selected (the only profile restricting leading_space)
idempotence can fail, as the counterexample input shows. -/
theorem sanitize_idempotent_without_everything
    (ps : List PlatformKey) (n ig : List Char)
    (_hne : ps ≠ []) (hev : PlatformKey.everything ∉ ps) :
    sanitize (sanitize n (get_combined_restrictions ps) ig)
        (get_combined_restrictions ps) ig =
      sanitize n (get_combined_restrictions ps) ig := by
  apply sanitize_idem_core
  · rw [mem_combined_positions]
    rintro ⟨k, hk, hmem⟩
    exact platform_no_leadingSpace k (fun he => hev (he ▸ hk)) hmem
  · rw [mem_combined_positions]
    rintro ⟨k, hk, hmem⟩
    exact platform_no_leadingPeriod k hmem
  · rw [mem_combined_excluded]
    rintro ⟨k, hk, hmem⟩
    exact (platform_no_dot k).1 hmem
  · rw [mem_combined_problematic]
    rintro ⟨k, hk, hmem⟩
    exact (platform_no_dot k).2 hmem

/-- C1 witness: the amended idempotence theorem applied to a concrete
Windows-only selection. -/
theorem sanitize_idempotent_without_everything_witness :
    sanitize
        (sanitize "a. b..".data (get_combined_restrictions [PlatformKey.windows]) [])
        (get_combined_restrictions [PlatformKey.windows]) [] =
      sanitize "a. b..".data (get_combined_restrictions [PlatformKey.windows]) [] :=
  sanitize_idempotent_without_everything [PlatformKey.windows] "a. b..".data []
    (by decide) (by decide)

/-- C2: the per-platform cascade returns the single highest-priority
severity whose check fires, in the fixed precedence Red > Purple > Orange
> Yellow > Green; in particular a reserved name under Windows yields
Purple and an excluded character under Windows yields Red. -/
theorem evaluate_precedence_spec :
    (∀ (s : List Char) (p : Platform) (ig : List Char),
        evaluate s p ig = specSeverity s p ig) ∧
      evaluate "CON.txt".data (PLATFORM_RESTRICTIONS PlatformKey.windows) [] =
        Severity.purple ∧
      evaluate "a<b.txt".data (PLATFORM_RESTRICTIONS PlatformKey.windows) [] =
        Severity.red :=
  ⟨evaluate_cascade, by decide, by decide⟩

/-- C3 counterexample: merging only Everything restricts the leading
space, while merging all other profiles together does not, so the two
effective restriction sets are not equal. -/
theorem everything_merge_cex :
    Position.leadingSpace ∈
        (get_combined_restrictions [PlatformKey.everything]).excluded_positions ∧
      Position.leadingSpace ∉
        (get_combined_restrictions [PlatformKey.windows, PlatformKey.macos,
          PlatformKey.linux, PlatformKey.cloud, PlatformKey.fat32]).excluded_positions := by
  decide

/-- C3 amended: merging only Everything yields the same excluded and
problematic character sets as merging all other profiles together, but a
strictly larger position-restriction set: it adds leading_space, which no
other profile restricts. -/
theorem everything_merge_amended :
    (get_combined_restrictions [PlatformKey.everything]).excluded_chars.toFinset =
      (get_combined_restrictions [PlatformKey.windows, PlatformKey.macos,
        PlatformKey.linux, PlatformKey.cloud, PlatformKey.fat32]).excluded_chars.toFinset ∧
    (get_combined_restrictions [PlatformKey.everything]).problematic_chars.toFinset =
      (get_combined_restrictions [PlatformKey.windows, PlatformKey.macos,
        PlatformKey.linux, PlatformKey.cloud, PlatformKey.fat32]).problematic_chars.toFinset ∧
    (get_combined_restrictions [PlatformKey.everything]).excluded_positions.toFinset =
      insert Position.leadingSpace
        ((get_combined_restrictions [PlatformKey.windows, PlatformKey.macos,
          PlatformKey.linux, PlatformKey.cloud, PlatformKey.fat32]).excluded_positions.toFinset) := by
  decide

/-- C4 counterexample: the dict returned by get_combined_restrictions has
no reserved_names, additional_restrictions or max_filename_length key, so
the merge does not produce those fields at all. -/
theorem merge_fields_cex :
    "reserved_names" ∉ get_combined_restrictions_fields ∧
      "additional_restrictions" ∉ get_combined_restrictions_fields ∧
      "max_filename_length" ∉ get_combined_restrictions_fields := by
  decide

/-- C4 amended: the merged excluded characters, problematic characters and
position restrictions are exactly the unions of the selected profiles'
fields, the empty selection yields the all-empty restriction, and the
most restrictive filename length is computed separately by
get_length_restriction_chars as the minimum non-null value. -/
theorem merge_union_min_amended :
    (∀ (ps : List PlatformKey) (c : Char),
        c ∈ (get_combined_restrictions ps).excluded_chars ↔
          ∃ k ∈ ps, c ∈ (PLATFORM_RESTRICTIONS k).excluded_chars) ∧
    (∀ (ps : List PlatformKey) (c : Char),
        c ∈ (get_combined_restrictions ps).problematic_chars ↔
          ∃ k ∈ ps, c ∈ (PLATFORM_RESTRICTIONS k).problematic_chars) ∧
    (∀ (ps : List PlatformKey) (q : Position),
        q ∈ (get_combined_restrictions ps).excluded_positions ↔
          ∃ k ∈ ps, q ∈ (PLATFORM_RESTRICTIONS k).excluded_positions) ∧
    get_combined_restrictions [] =
      { excluded_chars := [], problematic_chars := [], excluded_positions := [] } ∧
    (∀ ps : List PlatformKey,
        min_max_filename_length ps = spec_min_filename_length ps) :=
  ⟨mem_combined_excluded, mem_combined_problematic, mem_combined_positions,
    rfl, min_max_eq_spec⟩

/-- C5 counterexample: the reserved-name check does not flag the name
consisting of a single period under Windows, because its stem after
extension-stripping is the empty string, which is not a reserved name. -/
theorem reserved_dot_cex :
    reservedNameIssue ".".data (PLATFORM_RESTRICTIONS PlatformKey.windows) = false := by
  decide

/-- C5 amended: the reserved check strips the name at the first period
from the right when a period exists, upper-cases the stem and tests
case-insensitive membership; the sentinel entries go through the same
stripping, so the double-period name is flagged (its stem is the single
period, which is reserved) while the single-period name is not. -/
theorem reserved_check_amended :
    (∀ s : List Char, '.' ∈ s →
        s = namePartOf s ++ '.' :: extPartOf s ∧ '.' ∉ extPartOf s) ∧
    (∀ (s : List Char) (p : Platform),
        reservedNameIssue s p = true ↔
          (p.reserved_names ≠ [] ∧
            (reservedStem s).map upperChar ∈ p.reserved_names.map (List.map upperChar))) ∧
    reservedNameIssue "CON.txt".data (PLATFORM_RESTRICTIONS PlatformKey.windows) = true ∧
    reservedNameIssue "..".data (PLATFORM_RESTRICTIONS PlatformKey.windows) = true := by
  refine ⟨fun s h => dot_decomp h, ?_, by decide, by decide⟩
  intro s p
  by_cases h : p.reserved_names = []
  · simp [reservedNameIssue, h]
  · simp [reservedNameIssue, h]

/-- C5 witness: the extension-boundary decomposition applied to a concrete
name. -/
theorem reserved_check_amended_witness :
    "a.b".data = namePartOf "a.b".data ++ '.' :: extPartOf "a.b".data ∧
      '.' ∉ extPartOf "a.b".data :=
  reserved_check_amended.1 "a.b".data (by decide)

/-- C6: the trailing-period check fires exactly when the part before the
final extension ends with a period (when a non-empty extension exists) or
the whole name ends with a period (when the extension part is empty or
there is no period); a name whose only period is the extension separator
is not flagged. -/
theorem trailingPeriod_check_spec :
    (∀ s : List Char, trailingPeriodIssue s = claimTrailingPeriod s) ∧
      trailingPeriodIssue "file.txt".data = false := by
  constructor
  · intro s
    by_cases h : '.' ∈ s
    · have hiff := extPart_nil_iff h
      by_cases hext : extPartOf s = []
      · have hend : endsWithChar s '.' = true := hiff.mp hext
        simp [trailingPeriodIssue, claimTrailingPeriod, h, hext, hend]
      · have hend : endsWithChar s '.' = false := by
          cases he : endsWithChar s '.'
          · rfl
          · exact absurd (hiff.mpr he) hext
        simp [trailingPeriodIssue, claimTrailingPeriod, h, hext, hend]
    · simp [trailingPeriodIssue, claimTrailingPeriod, h]
  · decide

/-- C7: sanitizer step 4 follows the claimed algorithm (split at the last
period; with a period present, strip trailing periods from the name part
and rejoin unless both parts become empty, in which case strip all
trailing periods; with no period, strip all trailing periods), and a name
with no period comes back with no trailing periods. -/
theorem sanitizer_step4_spec :
    (∀ s : List Char, trailingPeriodStep s = claimStep4 s) ∧
      (∀ s : List Char, '.' ∉ s → endsWithChar (trailingPeriodStep s) '.' = false) := by
  constructor
  · intro s
    by_cases h : '.' ∈ s
    · by_cases hcond : rstripChar (namePartOf s) '.' = [] ∧ extPartOf s = []
      · simp [trailingPeriodStep, claimStep4, h, hcond, hcond.1, hcond.2]
      · have hc2 : rstripChar (namePartOf s) '.' ≠ [] ∨ extPartOf s ≠ [] := by
          tauto
        simp only [trailingPeriodStep, claimStep4, if_pos h]
        rw [if_pos hc2, if_neg hcond]
    · simp [trailingPeriodStep, claimStep4, h]
  · intro s h
    have hr : '.' ∉ s.reverse := fun hx => h (List.mem_reverse.mp hx)
    have heq : trailingPeriodStep s = s := by
      simp only [trailingPeriodStep, if_neg h]
      rw [rstripChar, no_dot_dropWhile_dot hr, List.reverse_reverse]
    rw [heq]
    cases he : endsWithChar s '.'
    · rfl
    · exact absurd (dot_mem_of_endsWith he) h

/-- C7 witness: the step-4 correspondence and the no-period conclusion at
a concrete input. -/
theorem sanitizer_step4_spec_witness :
    trailingPeriodStep "abc".data = claimStep4 "abc".data ∧
      endsWithChar (trailingPeriodStep "abc".data) '.' = false :=
  ⟨sanitizer_step4_spec.1 "abc".data, sanitizer_step4_spec.2 "abc".data (by decide)⟩

/-- C8: replace_accented_chars and auto_fix_name raise TypeError under the
default None ignore set on any non-empty input, contradicting the claimed
totality; with an actual set supplied they always return a value.  The
remaining engine operations are total by construction. -/
theorem char_utils_totality :
    replace_accented_chars "x".data none = Except.error noneTypeError ∧
      auto_fix_name "x".data none = Except.error noneTypeError ∧
      (∀ t ig : List Char, ∃ r, replace_accented_chars t (some ig) = Except.ok r) ∧
      (∀ t ig : List Char, ∃ r, auto_fix_name t (some ig) = Except.ok r) :=
  ⟨rfl, rfl, fun _ _ => ⟨_, rfl⟩, fun _ _ => ⟨_, rfl⟩⟩

/-- C9 counterexample: the space of the input is interior (the name
neither starts nor ends with a space), yet sanitizing under Everything
removes it: deleting the adjacent excluded character makes the space
leading, and the leading-space rule then strips it. -/
theorem space_removal_cex :
    ' ' ∈ "< a".data ∧ startsWithChar "< a".data ' ' = false ∧
      endsWithChar "< a".data ' ' = false ∧
      ' ' ∉ sanitize "< a".data (get_combined_restrictions [PlatformKey.everything]) [] := by
  decide

/-- C9 amended: no registered profile lists the space among its removable
characters, the character-removal steps preserve every space, and spaces
are removed only by the trailing_space and leading_space position rules:
without those rules the sanitizer preserves the space count. -/
theorem space_removal_amended :
    (∀ k : PlatformKey, ' ' ∉ (PLATFORM_RESTRICTIONS k).excluded_chars ∧
        ' ' ∉ (PLATFORM_RESTRICTIONS k).problematic_chars) ∧
    (∀ (rst : Combined) (ig s : List Char),
        (removeChars rst.problematic_chars ig
          (removeChars rst.excluded_chars ig s)).count ' ' = s.count ' ') ∧
    (∀ (rst : Combined) (ig s : List Char),
        Position.trailingSpace ∉ rst.excluded_positions →
        Position.leadingSpace ∉ rst.excluded_positions →
        (sanitize s rst ig).count ' ' = s.count ' ') :=
  ⟨platform_no_space,
   fun rst ig s => by rw [count_space_removeChars, count_space_removeChars],
   fun rst ig s hts hls => count_space_sanitize rst ig s hts hls⟩

/-- C9 witness: the space-count conclusion at a concrete restriction set
without trailing or leading space rules. -/
theorem space_removal_amended_witness :
    (sanitize " a b ".data (get_combined_restrictions [PlatformKey.macos]) []).count ' ' =
      " a b ".data.count ' ' :=
  space_removal_amended.2.2 (get_combined_restrictions [PlatformKey.macos]) [] " a b ".data
    (by decide) (by decide)

/-- C10: the sanitizer only deletes characters; for every filename,
profile selection and ignore set its output is a subsequence of its
input. -/
theorem sanitize_subsequence (ps : List PlatformKey) (ig n : List Char) :
    List.Sublist (sanitize n (get_combined_restrictions ps) ig) n :=
  sanitize_sublist (get_combined_restrictions ps) ig n

end Claims

end NameDrop
